import Mathlib

/-!
Verification development for the `code-explainer` repository.

The Lean definitions below are a shallow embedding of the Python sources:
  * `src/code_explainer/topics.py`  — the topic queue store and the topic parser;
  * `src/code_explainer/git_utils.py` — the symbol extractor and the directory
    tree builder.

Python strings are modelled as Lean `String`s; all character-level operations
(`lstrip`, `strip`, `lower`, `startswith`, `split`, lexicographic comparison)
are re-implemented over `List Char` so that every definition evaluates inside
the kernel.  The ASCII fragment of Python's semantics is modelled (the
repository only ever feeds ASCII markers, keywords and separators to these
operations).  File-system persistence is modelled by passing the persisted
value explicitly: an operation that Python ends with `save_queue(...)` returns
the new queue together with a `Bool` that records whether a save happened.
-/

/-! ### Character-level helpers (Python `str` operations) -/

/-- Python's `\s` / `str.strip` whitespace class (ASCII fragment):
space, tab, newline, carriage return, vertical tab, form feed. -/
def isPySpace (c : Char) : Bool :=
  c == ' ' || c == '\t' || c == '\n' || c == '\r' || c == Char.ofNat 11 || c == Char.ofNat 12

/-- Python `str.lstrip()` (ASCII whitespace). -/
def pyLstrip (s : String) : String :=
  String.mk (s.toList.dropWhile isPySpace)

/-- Python `str.strip()` (ASCII whitespace). -/
def pyStrip (s : String) : String :=
  String.mk (((s.toList.dropWhile isPySpace).reverse.dropWhile isPySpace).reverse)

/-- Python `str.lower()` (ASCII fragment), on `List Char`. -/
def lowerChars (l : List Char) : List Char :=
  l.map Char.toLower

/-- Python `str.lower()` (ASCII fragment). -/
def pyLower (s : String) : String :=
  String.mk (lowerChars s.toList)

/-- Whether `l` begins with the pattern `pat` (the char-list form of
Python `str.startswith`). -/
def leadEq : List Char → List Char → Bool
  | [], _ => true
  | _ :: _, [] => false
  | p :: ps, c :: cs => if c = p then leadEq ps cs else false

/-- Python `str.startswith(pat)`. -/
def pyStartsWith (s pat : String) : Bool :=
  leadEq pat.toList s.toList

/-- Python `str.endswith(pat)`. -/
def pyEndsWith (s pat : String) : Bool :=
  leadEq pat.toList.reverse s.toList.reverse

/-- Python `str.split(sep)` for a one-character separator, on `List Char`
(keeps empty pieces, like Python's `split`). -/
def splitOnChar (sep : Char) : List Char → List (List Char)
  | [] => [[]]
  | c :: cs =>
    let r := splitOnChar sep cs
    if c = sep then [] :: r
    else
      match r with
      | h :: t => (c :: h) :: t
      | [] => [[c]]

/-- Python `content.split("\n")`. -/
def splitLines (s : String) : List String :=
  (splitOnChar '\n' s.toList).map String.mk

/-- Index of the last element of `l` satisfying `p`, if any. -/
def lastIdxWhere (p : Char → Bool) : List Char → Option Nat
  | [] => none
  | c :: cs =>
    match lastIdxWhere p cs with
    | some j => some (j + 1)
    | none => if p c then some 0 else none

/-- Code-point lexicographic order on character lists: Python's `str`
comparison used by `sorted`. -/
def lexLE : List Char → List Char → Bool
  | [], _ => true
  | _ :: _, [] => false
  | a :: as, b :: bs => if a = b then lexLE as bs else decide (a.toNat < b.toNat)

/-- Python string comparison `a <= b` (code-point lexicographic). -/
def pyStrLE (a b : String) : Bool :=
  lexLE a.toList b.toList

/-! ### The Topic data entity (`topics.py`, `@dataclass Topic`) -/

/-- A queued exploration topic (`topics.py`, class `Topic`).  The `added`
timestamp is an opaque string supplied by the caller (`datetime.now()` in
Python). -/
structure Topic where
  title : String
  kind : String
  target : String
  source : String := ""
  status : String := "pending"
  added : String := ""
deriving DecidableEq, Repr

/-- `TOPIC_KINDS = {"file", "function", "repo", "diff", "general"}`. -/
def TOPIC_KINDS : List String := ["file", "function", "repo", "diff", "general"]

/-! ### Persistence layer (`load_queue` / `save_queue`)

The persisted file `topics.json` holds a JSON array of objects whose values
are strings.  A raw persisted record is modelled as an association list of
(field name, string value) pairs; JSON objects have distinct keys.  A missing
file is `none`. -/

/-- A raw persisted record: one JSON object of the `topics.json` array. -/
abbrev RawItem := List (String × String)

/-- The field names of the `Topic` dataclass, in declaration order. -/
def topicFields : List String := ["title", "kind", "target", "source", "status", "added"]

/-- The error raised when the persisted queue file cannot be decoded into the
`Topic` schema (spec taxonomy `CorruptStateError`; in Python, the uncaught
`TypeError` from `Topic(**item)`). -/
inductive CorruptStateError
  | typeError
deriving DecidableEq, Repr

/-- `Topic(**item)`: succeeds iff every key of `item` is a `Topic` field and
the required fields `title`, `kind`, `target` are present; missing optional
fields take the dataclass defaults (`added` defaults to the current time
`now`). -/
def decodeTopic (now : String) (item : RawItem) : Option Topic :=
  if item.all (fun p => topicFields.contains p.1) then
    match List.lookup "title" item, List.lookup "kind" item, List.lookup "target" item with
    | some title, some kind, some target =>
      some { title := title, kind := kind, target := target,
             source := (List.lookup "source" item).getD "",
             status := (List.lookup "status" item).getD "pending",
             added := (List.lookup "added" item).getD now }
    | _, _, _ => none
  else none

/-- `[Topic(**item) for item in data]`: decodes items left to right, failing
at the first item that does not match the schema. -/
def decodeAll (now : String) : List RawItem → Except CorruptStateError (List Topic)
  | [] => .ok []
  | item :: rest =>
    match decodeTopic now item with
    | none => .error .typeError
    | some t =>
      match decodeAll now rest with
      | .error e => .error e
      | .ok ts => .ok (t :: ts)

/-- `load_queue(output_dir)`: returns `[]` when no persisted file exists,
otherwise decodes the persisted array. -/
def load_queue (now : String) (file : Option (List RawItem)) :
    Except CorruptStateError (List Topic) :=
  match file with
  | none => .ok []
  | some data => decodeAll now data

/-- `asdict(t)`: the persisted representation of one topic, fields in
dataclass declaration order. -/
def encodeTopic (t : Topic) : RawItem :=
  [("title", t.title), ("kind", t.kind), ("target", t.target),
   ("source", t.source), ("status", t.status), ("added", t.added)]

/-- `save_queue(output_dir, queue)`: the persisted representation written to
disk — `[asdict(t) for t in queue]`. -/
def save_queue (queue : List Topic) : List RawItem :=
  queue.map encodeTopic

/-! ### Queue operations (`add_topics`, `pop_next`, `skip_topic`,
`pending_count`) -/

/-- The `for topic in topics` loop of `add_topics`: threads the queue, the
`existing_targets` set (modelled as a list, membership only) and the `added`
counter. -/
def add_topics_loop (queue : List Topic) (existing : List String) (added : Nat) :
    List Topic → List Topic × List String × Nat
  | [] => (queue, existing, added)
  | topic :: rest =>
    if topic.target ∈ existing then add_topics_loop queue existing added rest
    else add_topics_loop (queue ++ [topic]) (topic.target :: existing) (added + 1) rest

/-- `add_topics(output_dir, topics)`: loads the queue, appends the topics
whose target is not yet present, and returns the count added, the resulting
queue, and whether the queue was persisted (`if added: save_queue(...)`). -/
def add_topics (queue : List Topic) (topics : List Topic) : Nat × List Topic × Bool :=
  let r := add_topics_loop queue (queue.map Topic.target) 0 topics
  (r.2.2, r.1, r.2.2 != 0)

/-- `{ t with status := "done" }` — the mutation done by `pop_next`. -/
def setDone (t : Topic) : Topic := { t with status := "done" }

/-- `pop_next(output_dir)`: scans the queue in stored order for the first
topic with status `"pending"`, marks it `"done"` and saves; returns the
(now-done) topic, the resulting queue, and whether a save happened. -/
def pop_next : List Topic → Option Topic × List Topic × Bool
  | [] => (none, [], false)
  | t :: ts =>
    if t.status = "pending" then
      (some (setDone t), setDone t :: ts, true)
    else
      let r := pop_next ts
      (r.1, t :: r.2.1, r.2.2)

/-- `[i for i, t in enumerate(queue) if t.status == "pending"]`. -/
def pendingIndices (q : List Topic) : List Nat :=
  (q.enum.filter (fun p => p.2.status = "pending")).map (fun p => p.1)

/-- Replace the status of the element at position `pos` (Python
`queue[pos].status = s`). -/
def setStatusAt : List Topic → Nat → String → List Topic
  | [], _, _ => []
  | t :: ts, 0, s => { t with status := s } :: ts
  | t :: ts, n + 1, s => t :: setStatusAt ts n s

/-- `skip_topic(output_dir, index)`: interprets `index` relative to the
pending sub-list; out of bounds (including negative) returns `False` without
writing, otherwise marks the selected topic `"skipped"` and saves. -/
def skip_topic (q : List Topic) (index : Int) : Bool × List Topic × Bool :=
  let pending := pendingIndices q
  if index < 0 ∨ (pending.length : Int) ≤ index then (false, q, false)
  else (true, setStatusAt q (pending.getD index.toNat 0) "skipped", true)

/-- `pending_count(output_dir)`. -/
def pending_count (q : List Topic) : Nat :=
  (q.filter (fun t => t.status = "pending")).length

/-- The pending sub-list of a queue, in stored order. -/
def pendingList (q : List Topic) : List Topic :=
  q.filter (fun t => t.status = "pending")

/-! ### Specification-side characterizations for claim C1 -/

/-- The dedup filter of `add_topics` as a recursion over the input list,
threading the set of seen targets. -/
def dedupNew (E : List String) : List Topic → List Topic
  | [] => []
  | t :: ts =>
    if t.target ∈ E then dedupNew E ts
    else t :: dedupNew (t.target :: E) ts

/-- Claim C1's keep condition for the input topic at position `p.1`: its
target occurs neither in the queue nor among earlier input topics. -/
def keepCond (queue ts : List Topic) (p : Nat × Topic) : Bool :=
  decide (p.2.target ∉ queue.map Topic.target ∧
          p.2.target ∉ (ts.take p.1).map Topic.target)

/-- Exactly those input topics, in input order, kept by claim C1's
characterization. -/
def claimNewTopics (queue ts : List Topic) : List Topic :=
  (ts.enum.filter (keepCond queue ts)).map (fun p => p.2)

lemma enumFrom_shift {α : Type} (ts : List α) (k : Nat) :
    List.enumFrom (k + 1) ts = (List.enumFrom k ts).map (fun p => (p.1 + 1, p.2)) := by
  induction ts generalizing k with
  | nil => simp
  | cons a ts ih => simp [List.enumFrom_cons, ih (k + 1)]

lemma add_topics_loop_eq (ts : List Topic) :
    ∀ (queue : List Topic) (E : List String) (a : Nat),
      add_topics_loop queue E a ts =
        (queue ++ dedupNew E ts, ((dedupNew E ts).map Topic.target).reverse ++ E,
         a + (dedupNew E ts).length) := by
  induction ts with
  | nil => intro queue E a; simp [add_topics_loop, dedupNew]
  | cons t ts ih =>
    intro queue E a
    by_cases h : t.target ∈ E
    · simp [add_topics_loop, dedupNew, h, ih]
    · rw [show add_topics_loop queue E a (t :: ts) =
            add_topics_loop (queue ++ [t]) (t.target :: E) (a + 1) ts by
          simp [add_topics_loop, h]]
      rw [show dedupNew E (t :: ts) = t :: dedupNew (t.target :: E) ts by
          simp [dedupNew, h]]
      rw [ih]
      simp only [Prod.mk.injEq]
      refine ⟨by simp, by simp, by simp only [List.length_cons]; omega⟩

lemma enum_filter_snd (t : Topic) (ts : List Topic) (f : Nat × Topic → Bool) :
    (((t :: ts).enum.filter f).map (fun p => p.2)) =
      (if f (0, t) then [t] else []) ++
        ((ts.enum.filter (fun p => f (p.1 + 1, p.2))).map (fun p => p.2)) := by
  have hshift : (t :: ts).enum = (0, t) :: ts.enum.map (fun p => (p.1 + 1, p.2)) := by
    rw [List.enum_cons, show (1 : Nat) = 0 + 1 from rfl, enumFrom_shift ts 0]
    rfl
  have hcomp : ∀ (l : List (Nat × Topic)),
      ((l.map (fun p => (p.1 + 1, p.2))).filter f).map (fun p => p.2) =
        ((l.filter (fun p => f (p.1 + 1, p.2))).map (fun p => p.2)) := by
    intro l
    induction l with
    | nil => rfl
    | cons q l ihl =>
      by_cases hq : f (q.1 + 1, q.2)
      · simp only [List.map_cons, List.filter_cons, hq, if_true, List.map_cons, ihl]
      · simp only [List.map_cons, List.filter_cons, hq, Bool.false_eq_true, if_false, ihl]
  rw [hshift, List.filter_cons]
  by_cases hf : f (0, t)
  · simp only [hf, if_true, List.map_cons, hcomp]
    rfl
  · simp only [hf, Bool.false_eq_true, if_false, hcomp]
    rfl

lemma dedupNew_eq_claim (ts : List Topic) :
    ∀ (E : List String),
      dedupNew E ts =
        ((ts.enum.filter
            (fun p => decide (p.2.target ∉ E ∧
                              p.2.target ∉ (ts.take p.1).map Topic.target))).map
          (fun p => p.2)) := by
  induction ts with
  | nil => intro E; simp [dedupNew]
  | cons t ts ih =>
    intro E
    rw [enum_filter_snd]
    by_cases h : t.target ∈ E
    · have hc : (decide (t.target ∉ E ∧
          t.target ∉ ((t :: ts).take 0).map Topic.target) : Bool) = false := by
        simp [h]
      rw [hc]
      simp only [Bool.false_eq_true, if_false, List.nil_append]
      rw [dedupNew, if_pos h, ih E]
      congr 1
      apply List.filter_congr
      intro p _
      apply decide_eq_decide.mpr
      simp only [List.take_succ_cons, List.map_cons, List.mem_cons, not_or]
      constructor
      · rintro ⟨h1, h3⟩
        exact ⟨h1, fun he => h1 (by rw [he]; exact h), h3⟩
      · rintro ⟨h1, -, h3⟩
        exact ⟨h1, h3⟩
    · have hc : (decide (t.target ∉ E ∧
          t.target ∉ ((t :: ts).take 0).map Topic.target) : Bool) = true := by
        simp [h]
      rw [hc]
      simp only [if_true, List.singleton_append]
      rw [dedupNew, if_neg h, ih (t.target :: E)]
      congr 1
      congr 1
      apply List.filter_congr
      intro p _
      apply decide_eq_decide.mpr
      simp only [List.take_succ_cons, List.map_cons, List.mem_cons, not_or]
      constructor
      · rintro ⟨⟨h2, h1⟩, h3⟩
        exact ⟨h1, h2, h3⟩
      · rintro ⟨h1, h2, h3⟩
        exact ⟨⟨h2, h1⟩, h3⟩

lemma claimNewTopics_eq_dedupNew (queue ts : List Topic) :
    claimNewTopics queue ts = dedupNew (queue.map Topic.target) ts := by
  rw [claimNewTopics, dedupNew_eq_claim ts (queue.map Topic.target)]
  rfl

lemma mem_enumFrom_of_get? {α : Type} (ts : List α) :
    ∀ (k j : Nat) (t : α), ts.get? j = some t → (k + j, t) ∈ List.enumFrom k ts := by
  induction ts with
  | nil => intro k j t h; simp at h
  | cons a ts ih =>
    intro k j t h
    cases j with
    | zero =>
      simp only [List.get?] at h
      cases h
      simp [List.enumFrom_cons]
    | succ j =>
      simp only [List.get?] at h
      rw [List.enumFrom_cons]
      have := ih (k + 1) j t h
      have harith : k + 1 + j = k + (j + 1) := by omega
      rw [harith] at this
      exact List.mem_cons_of_mem _ this

lemma mem_enum_of_get? {α : Type} (ts : List α) (j : Nat) (t : α)
    (h : ts.get? j = some t) : (j, t) ∈ ts.enum := by
  have := mem_enumFrom_of_get? ts 0 j t h
  simpa using this

/-- C1: `add_topics` appends, in input order, exactly those input topics
whose target matches neither a target already in the queue nor the target of
an earlier input topic; it returns the number appended and persists only if
the count is nonzero.  When two input topics share a target, the later one is
not kept and the returned count is strictly below the input length. -/
theorem C1_add_topics_dedup (queue ts : List Topic) (i j : Nat) :
    add_topics queue ts =
      ((claimNewTopics queue ts).length, queue ++ claimNewTopics queue ts,
       (claimNewTopics queue ts).length != 0)
    ∧ (∀ t1 t2 : Topic, i < j → ts.get? i = some t1 → ts.get? j = some t2 →
        t1.target = t2.target →
        keepCond queue ts (j, t2) = false ∧ (add_topics queue ts).1 < ts.length) := by
  have hmain : add_topics queue ts =
      ((claimNewTopics queue ts).length, queue ++ claimNewTopics queue ts,
       (claimNewTopics queue ts).length != 0) := by
    rw [add_topics, add_topics_loop_eq ts queue (queue.map Topic.target) 0,
        claimNewTopics_eq_dedupNew]
    simp
  refine ⟨hmain, ?_⟩
  intro t1 t2 hij hi hj htarg
  have hkc : keepCond queue ts (j, t2) = false := by
    rw [keepCond]
    apply decide_eq_false
    rintro ⟨-, h2⟩
    apply h2
    have ht1mem : t1 ∈ ts.take j := by
      have : (ts.take j).get? i = some t1 := by
        rw [List.get?_take hij]; exact hi
      exact List.get?_mem this
    rw [← htarg]
    exact List.mem_map_of_mem Topic.target ht1mem
  refine ⟨hkc, ?_⟩
  have hcnt : (add_topics queue ts).1 = (claimNewTopics queue ts).length := by
    rw [hmain]
  rw [hcnt, claimNewTopics, List.length_map]
  have hlt : (ts.enum.filter (keepCond queue ts)).length < ts.enum.length := by
    rw [List.length_filter_lt_length_iff_exists]
    exact ⟨(j, t2), mem_enum_of_get? ts j t2 hj, by simp [hkc]⟩
  simpa using hlt

/-- Witness for C1 at a concrete queue and input list with a duplicated
target. -/
theorem C1_add_topics_dedup_witness :
    keepCond [] [⟨"t1", "file", "a", "", "pending", ""⟩,
                 ⟨"t2", "repo", "a", "", "pending", ""⟩] (1, ⟨"t2", "repo", "a", "", "pending", ""⟩) = false
    ∧ (add_topics [] [⟨"t1", "file", "a", "", "pending", ""⟩,
                      ⟨"t2", "repo", "a", "", "pending", ""⟩]).1 < 2 :=
  (C1_add_topics_dedup [] [⟨"t1", "file", "a", "", "pending", ""⟩,
      ⟨"t2", "repo", "a", "", "pending", ""⟩] 0 1).2
    ⟨"t1", "file", "a", "", "pending", ""⟩ ⟨"t2", "repo", "a", "", "pending", ""⟩
    (by decide) (by decide) (by decide) (by decide)

/-! ### Claim C2: pop_next -/

/-- Iterated `pop_next`: each call re-loads the queue the previous call
persisted (the store is a fresh process per call). -/
def popIter : Nat → List Topic → List (Option Topic) × List Topic
  | 0, q => ([], q)
  | n + 1, q =>
    let r := pop_next q
    let rest := popIter n r.2.1
    (r.1 :: rest.1, rest.2)

lemma pendingList_nil : pendingList [] = [] := rfl

lemma pendingList_cons (t : Topic) (ts : List Topic) :
    pendingList (t :: ts) =
      if t.status = "pending" then t :: pendingList ts else pendingList ts := by
  by_cases h : t.status = "pending" <;> simp [pendingList, List.filter_cons, h]

lemma pop_next_fst (q : List Topic) :
    (pop_next q).1 = (pendingList q).head?.map setDone := by
  induction q with
  | nil => rfl
  | cons t ts ih =>
    by_cases h : t.status = "pending"
    · simp [pop_next, pendingList_cons, h]
    · simp [pop_next, pendingList_cons, h, ih]

lemma setDone_not_pending (t : Topic) : (setDone t).status ≠ "pending" := by
  simp [setDone]

lemma pop_next_pendingList (q : List Topic) :
    pendingList (pop_next q).2.1 = (pendingList q).tail := by
  induction q with
  | nil => rfl
  | cons t ts ih =>
    by_cases h : t.status = "pending"
    · simp [pop_next, pendingList_cons, h, setDone]
    · simp [pop_next, pendingList_cons, h, ih]

lemma pop_next_saved (q : List Topic) :
    (pop_next q).2.2 = !(pendingList q).isEmpty := by
  induction q with
  | nil => rfl
  | cons t ts ih =>
    by_cases h : t.status = "pending"
    · simp [pop_next, pendingList_cons, h]
    · simp [pop_next, pendingList_cons, h, ih]

lemma pop_next_no_pending (q : List Topic) (h : pendingList q = []) :
    pop_next q = (none, q, false) := by
  induction q with
  | nil => rfl
  | cons t ts ih =>
    by_cases ht : t.status = "pending"
    · rw [pendingList_cons, if_pos ht] at h
      exact absurd h (List.cons_ne_nil _ _)
    · rw [pendingList_cons, if_neg ht] at h
      simp [pop_next, ht, ih h]

/-- C2: `pop_next` returns the first pending topic (already marked done),
persists exactly when one exists, is a no-op returning `none` on a queue with
no pending topic, and iterating it `pendingCount` many times returns each
pending topic exactly once in insertion order, leaving zero pending; the next
call then returns `none` without writing. -/
theorem C2_pop_next_fifo (q : List Topic) (n : Nat) :
    (pop_next q).1 = (pendingList q).head?.map setDone
    ∧ (pop_next q).2.2 = !(pendingList q).isEmpty
    ∧ (pendingList q = [] → pop_next q = (none, q, false))
    ∧ (n = (pendingList q).length →
        (popIter n q).1 = (pendingList q).map (fun t => some (setDone t))
        ∧ pendingList (popIter n q).2 = []
        ∧ pop_next (popIter n q).2 = (none, (popIter n q).2, false)) := by
  refine ⟨pop_next_fst q, pop_next_saved q, pop_next_no_pending q, ?_⟩
  intro hn
  have main : ∀ (m : Nat) (qq : List Topic), m = (pendingList qq).length →
      (popIter m qq).1 = (pendingList qq).map (fun t => some (setDone t))
      ∧ pendingList (popIter m qq).2 = [] := by
    intro m
    induction m with
    | zero =>
      intro qq h
      have : pendingList qq = [] := by
        exact List.length_eq_zero.mp h.symm
      simp [popIter, this]
    | succ k ih =>
      intro qq h
      have hne : pendingList qq ≠ [] := by
        intro hc
        rw [hc] at h
        simp at h
      obtain ⟨p, rest, hp⟩ := List.exists_cons_of_ne_nil hne
      have hlen : k = (pendingList (pop_next qq).2.1).length := by
        rw [pop_next_pendingList, hp]
        rw [hp] at h
        simpa using h
      have ihk := ih (pop_next qq).2.1 hlen
      constructor
      · show (pop_next qq).1 :: (popIter k (pop_next qq).2.1).1 = _
        rw [pop_next_fst, hp, ihk.1, pop_next_pendingList, hp]
        simp
      · show pendingList (popIter k (pop_next qq).2.1).2 = []
        exact ihk.2
  have hm := main n q hn
  refine ⟨hm.1, hm.2, pop_next_no_pending _ hm.2⟩

/-- Witness for C2 on a concrete two-topic queue. -/
theorem C2_pop_next_fifo_witness :
    (popIter 2 [⟨"t1", "file", "a", "", "pending", ""⟩,
                ⟨"t2", "repo", "b", "", "pending", ""⟩]).1 =
      [some ⟨"t1", "file", "a", "", "done", ""⟩,
       some ⟨"t2", "repo", "b", "", "done", ""⟩]
    ∧ pendingList (popIter 2 [⟨"t1", "file", "a", "", "pending", ""⟩,
                              ⟨"t2", "repo", "b", "", "pending", ""⟩]).2 = [] := by
  have h := (C2_pop_next_fifo [⟨"t1", "file", "a", "", "pending", ""⟩,
    ⟨"t2", "repo", "b", "", "pending", ""⟩] 2).2.2.2 (by decide)
  exact ⟨h.1.trans (by decide), h.2.1⟩

/-! ### Claim C3: skip_topic -/

lemma pendingIndices_nil : pendingIndices [] = [] := rfl

lemma pendingIndices_cons (t : Topic) (ts : List Topic) :
    pendingIndices (t :: ts) =
      (if t.status = "pending" then [0] else []) ++
        (pendingIndices ts).map (fun i => i + 1) := by
  have hshift : (t :: ts).enum = (0, t) :: ts.enum.map (fun p => (p.1 + 1, p.2)) := by
    rw [List.enum_cons, show (1 : Nat) = 0 + 1 from rfl, enumFrom_shift ts 0]
    rfl
  have hcomp : ∀ l : List (Nat × Topic),
      ((l.map (fun p => (p.1 + 1, p.2))).filter
          (fun p => decide (p.2.status = "pending"))).map (fun p => p.1) =
        ((l.filter (fun p => decide (p.2.status = "pending"))).map
          (fun p => p.1)).map (fun i => i + 1) := by
    intro l
    induction l with
    | nil => rfl
    | cons x l ihl =>
      by_cases hx : x.2.status = "pending"
      · simp [List.filter_cons, hx, ihl]
      · simp [List.filter_cons, hx, ihl]
  rw [pendingIndices, hshift, List.filter_cons]
  by_cases ht : t.status = "pending"
  · simp [ht, pendingIndices]
    rw [← List.map_map]
    exact hcomp ts.enum
  · simp [ht, pendingIndices]
    rw [← List.map_map]
    exact hcomp ts.enum

lemma pendingIndices_status (q : List Topic) :
    ∀ pos ∈ pendingIndices q, ∃ t, q.get? pos = some t ∧ t.status = "pending" := by
  induction q with
  | nil => intro pos h; simp [pendingIndices_nil] at h
  | cons t ts ih =>
    intro pos h
    rw [pendingIndices_cons] at h
    rcases List.mem_append.mp h with h0 | hs
    · by_cases ht : t.status = "pending"
      · rw [if_pos ht] at h0
        have : pos = 0 := by simpa using h0
        exact ⟨t, by simp [this], ht⟩
      · rw [if_neg ht] at h0
        simp at h0
    · obtain ⟨p, hp, rfl⟩ := List.mem_map.mp hs
      obtain ⟨u, hu, hus⟩ := ih p hp
      exact ⟨u, by simpa using hu, hus⟩

lemma setStatusAt_get? (q : List Topic) :
    ∀ (pos i : Nat) (s : String),
      (setStatusAt q pos s).get? i =
        if i = pos then (q.get? i).map (fun t => { t with status := s })
        else q.get? i := by
  induction q with
  | nil => intro pos i s; cases pos <;> cases i <;> simp [setStatusAt]
  | cons t ts ih =>
    intro pos i s
    cases pos with
    | zero =>
      cases i with
      | zero => simp [setStatusAt]
      | succ j => simp [setStatusAt, Nat.succ_ne_zero]
    | succ p =>
      cases i with
      | zero => simp [setStatusAt, (Nat.succ_ne_zero p).symm]
      | succ j =>
        simp only [setStatusAt, List.get?]
        rw [ih p j s]
        by_cases hij : j = p
        · simp [hij]
        · simp [hij, fun h => hij (Nat.succ_injective h)]

lemma setStatusAt_length (q : List Topic) :
    ∀ (pos : Nat) (s : String), (setStatusAt q pos s).length = q.length := by
  induction q with
  | nil => intro pos s; cases pos <;> rfl
  | cons t ts ih =>
    intro pos s
    cases pos with
    | zero => simp [setStatusAt]
    | succ p => simp [setStatusAt, ih p s]

lemma pendingIndices_setStatus_head (q : List Topic) :
    ∀ (p1 : Nat) (rest : List Nat), pendingIndices q = p1 :: rest →
      pendingIndices (setStatusAt q p1 "skipped") = rest := by
  induction q with
  | nil => intro p1 rest h; simp [pendingIndices_nil] at h
  | cons t ts ih =>
    intro p1 rest h
    rw [pendingIndices_cons] at h
    by_cases ht : t.status = "pending"
    · rw [if_pos ht, List.singleton_append] at h
      injection h with h0 hrest
      subst h0
      show pendingIndices ({ t with status := "skipped" } :: ts) = rest
      rw [pendingIndices_cons]
      rw [show ({ t with status := "skipped" } : Topic).status = "skipped" from rfl]
      rw [if_neg (by decide : ¬ ("skipped" : String) = "pending")]
      rw [List.nil_append]
      exact hrest
    · rw [if_neg ht, List.nil_append] at h
      obtain ⟨p, l1, hpl, hp1, hrest⟩ := List.map_eq_cons_iff.mp h
      subst hp1
      show pendingIndices (t :: setStatusAt ts p "skipped") = rest
      rw [pendingIndices_cons, if_neg ht, List.nil_append, ih p l1 hpl, hrest]

lemma list_getD_eq_get? {α : Type} (l : List α) :
    ∀ (n : Nat) (d : α), l.getD n d = (l.get? n).getD d := by
  induction l with
  | nil => intro n d; cases n <;> rfl
  | cons a l ih => intro n d; cases n <;> simp [List.getD, ih]

/-- C3: `skip_topic` interprets the index relative to the pending sub-list:
out of bounds (including any negative index) returns `False` without writing;
otherwise it marks the index-th pending topic (which was pending) as skipped
and persists; and two successive `skip 0` calls (no pop in between) on a
queue with at least two pending topics mark two different positions. -/
theorem C3_skip_pending_relative (q : List Topic) (index : Int) :
    ((index < 0 ∨ ((pendingIndices q).length : Int) ≤ index) →
      skip_topic q index = (false, q, false))
    ∧ (0 ≤ index → index < ((pendingIndices q).length : Int) →
        ∃ pos t, (pendingIndices q).get? index.toNat = some pos
          ∧ q.get? pos = some t ∧ t.status = "pending"
          ∧ skip_topic q index = (true, setStatusAt q pos "skipped", true))
    ∧ (2 ≤ (pendingIndices q).length →
        ∃ p1 p2, skip_topic q 0 = (true, setStatusAt q p1 "skipped", true)
          ∧ skip_topic (setStatusAt q p1 "skipped") 0 =
              (true, setStatusAt (setStatusAt q p1 "skipped") p2 "skipped", true)
          ∧ p1 ≠ p2) := by
  refine ⟨?_, ?_, ?_⟩
  · intro h
    rw [skip_topic, if_pos h]
  · intro h0 hlt
    have hguard : ¬ (index < 0 ∨ ((pendingIndices q).length : Int) ≤ index) := by
      push_neg
      exact ⟨h0, hlt⟩
    have htn : index.toNat < (pendingIndices q).length := by
      omega
    obtain ⟨pos, hpos⟩ : ∃ pos, (pendingIndices q).get? index.toNat = some pos :=
      ⟨(pendingIndices q).get ⟨index.toNat, htn⟩, List.get?_eq_get htn⟩
    have hmem : pos ∈ pendingIndices q := List.get?_mem hpos
    obtain ⟨t, ht, hts⟩ := pendingIndices_status q pos hmem
    refine ⟨pos, t, hpos, ht, hts, ?_⟩
    rw [skip_topic, if_neg hguard]
    have : (pendingIndices q).getD index.toNat 0 = pos := by
      rw [list_getD_eq_get?, hpos]
      rfl
    rw [this]
  · intro h2
    obtain ⟨p1, rest, hp1⟩ : ∃ p1 rest, pendingIndices q = p1 :: rest := by
      cases hq : pendingIndices q with
      | nil => rw [hq] at h2; simp at h2
      | cons a l => exact ⟨a, l, rfl⟩
    obtain ⟨p2, rest2, hp2⟩ : ∃ p2 rest2, rest = p2 :: rest2 := by
      cases hr : rest with
      | nil => rw [hp1, hr] at h2; simp at h2
      | cons a l => exact ⟨a, l, rfl⟩
    have hskip1 : skip_topic q 0 = (true, setStatusAt q p1 "skipped", true) := by
      rw [skip_topic]
      have hguard : ¬ ((0 : Int) < 0 ∨ ((pendingIndices q).length : Int) ≤ 0) := by
        rw [hp1]
        simp only [List.length_cons]
        omega
      rw [if_neg hguard]
      have : (pendingIndices q).getD (0 : Int).toNat 0 = p1 := by
        rw [hp1]
        rfl
      rw [this]
    have hq1pending : pendingIndices (setStatusAt q p1 "skipped") = p2 :: rest2 := by
      rw [pendingIndices_setStatus_head q p1 rest hp1, hp2]
    have hskip2 : skip_topic (setStatusAt q p1 "skipped") 0 =
        (true, setStatusAt (setStatusAt q p1 "skipped") p2 "skipped", true) := by
      rw [skip_topic]
      have hguard : ¬ ((0 : Int) < 0 ∨
          ((pendingIndices (setStatusAt q p1 "skipped")).length : Int) ≤ 0) := by
        rw [hq1pending]
        simp only [List.length_cons]
        omega
      rw [if_neg hguard]
      have : (pendingIndices (setStatusAt q p1 "skipped")).getD (0 : Int).toNat 0 = p2 := by
        rw [hq1pending]
        rfl
      rw [this]
    refine ⟨p1, p2, hskip1, hskip2, ?_⟩
    intro heq
    obtain ⟨t1, ht1, ht1s⟩ := pendingIndices_status q p1 (by rw [hp1]; exact List.mem_cons_self _ _)
    obtain ⟨t2, ht2, ht2s⟩ := pendingIndices_status (setStatusAt q p1 "skipped") p2
      (by rw [hq1pending]; exact List.mem_cons_self _ _)
    rw [← heq] at ht2
    rw [setStatusAt_get? q p1 p1 "skipped", if_pos rfl, ht1] at ht2
    have ht2eq : ({ t1 with status := "skipped" } : Topic) = t2 := Option.some.inj ht2
    rw [← ht2eq] at ht2s
    rw [show ({ t1 with status := "skipped" } : Topic).status = "skipped" from rfl] at ht2s
    exact absurd ht2s (by decide)

/-- Witness for C3 on a concrete queue with two pending topics. -/
theorem C3_skip_pending_relative_witness :
    ∃ p1 p2, skip_topic [⟨"t1", "file", "a", "", "pending", ""⟩,
        ⟨"t2", "repo", "b", "", "pending", ""⟩] 0 =
        (true, setStatusAt [⟨"t1", "file", "a", "", "pending", ""⟩,
          ⟨"t2", "repo", "b", "", "pending", ""⟩] p1 "skipped", true)
      ∧ skip_topic (setStatusAt [⟨"t1", "file", "a", "", "pending", ""⟩,
          ⟨"t2", "repo", "b", "", "pending", ""⟩] p1 "skipped") 0 =
          (true, setStatusAt (setStatusAt [⟨"t1", "file", "a", "", "pending", ""⟩,
            ⟨"t2", "repo", "b", "", "pending", ""⟩] p1 "skipped") p2 "skipped", true)
      ∧ p1 ≠ p2 :=
  (C3_skip_pending_relative [⟨"t1", "file", "a", "", "pending", ""⟩,
    ⟨"t2", "repo", "b", "", "pending", ""⟩] 0).2.2 (by decide)

/-! ### Claim C4: status monotonicity -/

/-- One topic's permitted evolution across a store operation: all fields but
`status` unchanged, and `status` either unchanged or moved from `"pending"`
to `"done"` or `"skipped"`. -/
def statusStep (a b : Topic) : Prop :=
  b.title = a.title ∧ b.kind = a.kind ∧ b.target = a.target ∧ b.source = a.source ∧
  b.added = a.added ∧
  (b.status = a.status ∨ (a.status = "pending" ∧ (b.status = "done" ∨ b.status = "skipped")))

/-- The whole-queue evolution invariant: no topic is deleted, and every
retained position evolves by `statusStep`. -/
def StatusEvolves (q q' : List Topic) : Prop :=
  q.length ≤ q'.length ∧
  ∀ (i : Nat) (a b : Topic), q.get? i = some a → q'.get? i = some b → statusStep a b

lemma statusStep_refl (a : Topic) : statusStep a a :=
  ⟨rfl, rfl, rfl, rfl, rfl, Or.inl rfl⟩

lemma StatusEvolves_self (q : List Topic) : StatusEvolves q q := by
  refine ⟨le_refl _, fun i a b ha hb => ?_⟩
  rw [ha] at hb
  cases Option.some.inj hb
  exact statusStep_refl a

lemma StatusEvolves_append (q k : List Topic) : StatusEvolves q (q ++ k) := by
  refine ⟨by simp, fun i a b ha hb => ?_⟩
  have hi : i < q.length := by
    rcases List.get?_eq_some.mp ha with ⟨h, -⟩
    exact h
  rw [List.get?_append hi, ha] at hb
  cases Option.some.inj hb
  exact statusStep_refl a

lemma StatusEvolves_pop (q : List Topic) : StatusEvolves q (pop_next q).2.1 := by
  induction q with
  | nil => exact StatusEvolves_self []
  | cons t ts ih =>
    by_cases h : t.status = "pending"
    · rw [show (pop_next (t :: ts)).2.1 = setDone t :: ts by simp [pop_next, h]]
      refine ⟨by simp [List.length_cons], fun i a b ha hb => ?_⟩
      cases i with
      | zero =>
        cases Option.some.inj ha
        cases Option.some.inj hb
        exact ⟨rfl, rfl, rfl, rfl, rfl, Or.inr ⟨h, Or.inl rfl⟩⟩
      | succ j =>
        simp only [List.get?] at ha hb
        rw [ha] at hb
        cases Option.some.inj hb
        exact statusStep_refl a
    · rw [show (pop_next (t :: ts)).2.1 = t :: (pop_next ts).2.1 by simp [pop_next, h]]
      refine ⟨by simp only [List.length_cons]; exact Nat.succ_le_succ ih.1,
        fun i a b ha hb => ?_⟩
      cases i with
      | zero =>
        cases Option.some.inj ha
        cases Option.some.inj hb
        exact statusStep_refl _
      | succ j =>
        simp only [List.get?] at ha hb
        exact ih.2 j a b ha hb

lemma StatusEvolves_setStatus (q : List Topic) (pos : Nat) (s : String)
    (hpend : ∀ t, q.get? pos = some t → t.status = "pending")
    (hs : s = "done" ∨ s = "skipped") :
    StatusEvolves q (setStatusAt q pos s) := by
  refine ⟨by rw [setStatusAt_length], fun i a b ha hb => ?_⟩
  rw [setStatusAt_get? q pos i s] at hb
  by_cases hip : i = pos
  · rw [if_pos hip, ha] at hb
    cases Option.some.inj hb
    refine ⟨rfl, rfl, rfl, rfl, rfl, Or.inr ⟨?_, ?_⟩⟩
    · exact hpend a (hip ▸ ha)
    · rcases hs with h | h <;> [exact Or.inl (by rw [h]); exact Or.inr (by rw [h])]
  · rw [if_neg hip, ha] at hb
    cases Option.some.inj hb
    exact statusStep_refl a

/-- C4: every mutating operation of the topic queue store preserves status
monotonicity — `add_topics` only appends, `pop_next` only moves the first
pending topic to done, `skip_topic` only moves one pending topic to skipped;
no operation deletes a topic or touches a done/skipped topic. -/
theorem C4_status_monotone (q ts : List Topic) (index : Int) :
    StatusEvolves q (add_topics q ts).2.1
    ∧ StatusEvolves q (pop_next q).2.1
    ∧ StatusEvolves q (skip_topic q index).2.1 := by
  refine ⟨?_, StatusEvolves_pop q, ?_⟩
  · rw [add_topics]
    rw [add_topics_loop_eq ts q (q.map Topic.target) 0]
    exact StatusEvolves_append q _
  · by_cases hguard : index < 0 ∨ ((pendingIndices q).length : Int) ≤ index
    · rw [skip_topic, if_pos hguard]
      exact StatusEvolves_self q
    · rw [skip_topic, if_neg hguard]
      push_neg at hguard
      have htn : index.toNat < (pendingIndices q).length := by omega
      obtain ⟨pos, hpos⟩ : ∃ pos, (pendingIndices q).get? index.toNat = some pos :=
        ⟨(pendingIndices q).get ⟨index.toNat, htn⟩, List.get?_eq_get htn⟩
      have hgd : (pendingIndices q).getD index.toNat 0 = pos := by
        rw [list_getD_eq_get?, hpos]
        rfl
      rw [hgd]
      apply StatusEvolves_setStatus
      · intro t ht
        obtain ⟨u, hu, hus⟩ := pendingIndices_status q pos (List.get?_mem hpos)
        rw [hu] at ht
        cases Option.some.inj ht
        exact hus
      · exact Or.inr rfl

/-! ### Claims C5 and C6: persistence layer -/

/-- C5: `load_queue` yields the empty sequence when no persisted state
exists, and yields a `CorruptStateError` — surfaced in the result, not
repaired — exactly when some persisted record cannot be decoded into the
`Topic` schema. -/
theorem C5_load_missing_or_corrupt (now : String) :
    load_queue now none = Except.ok []
    ∧ ∀ data : List RawItem,
        ((∃ item ∈ data, decodeTopic now item = none) ↔
          ∃ e, load_queue now (some data) = Except.error e) := by
  refine ⟨rfl, ?_⟩
  intro data
  show (∃ item ∈ data, decodeTopic now item = none) ↔
    ∃ e, decodeAll now data = Except.error e
  induction data with
  | nil =>
    constructor
    · rintro ⟨item, hmem, -⟩
      exact absurd hmem (List.not_mem_nil item)
    · rintro ⟨e, he⟩
      rw [show decodeAll now [] = Except.ok [] from rfl] at he
      cases he
  | cons item rest ih =>
    cases hdec : decodeTopic now item with
    | none =>
      constructor
      · intro _
        exact ⟨.typeError, by rw [decodeAll, hdec]⟩
      · intro _
        exact ⟨item, List.mem_cons_self _ _, hdec⟩
    | some t =>
      constructor
      · rintro ⟨x, hmem, hx⟩
        rcases List.mem_cons.mp hmem with rfl | hmem
        · rw [hdec] at hx
          cases hx
        · obtain ⟨e, he⟩ := ih.mp ⟨x, hmem, hx⟩
          refine ⟨e, ?_⟩
          rw [decodeAll, hdec, he]
      · rintro ⟨e, he⟩
        rw [decodeAll, hdec] at he
        cases hrest : decodeAll now rest with
        | error e2 =>
          obtain ⟨x, hmem, hx⟩ := ih.mpr ⟨e2, hrest⟩
          exact ⟨x, List.mem_cons_of_mem _ hmem, hx⟩
        | ok ts =>
          rw [hrest] at he
          cases he

lemma decode_encode (now : String) (t : Topic) :
    decodeTopic now (encodeTopic t) = some t := rfl

lemma decodeAll_encode (now : String) (ts : List Topic) :
    decodeAll now (save_queue ts) = Except.ok ts := by
  induction ts with
  | nil => rfl
  | cons t ts ih =>
    show decodeAll now (encodeTopic t :: save_queue ts) = Except.ok (t :: ts)
    rw [decodeAll, decode_encode, ih]

/-- C6: for every loadable persisted queue, saving what was loaded is a
no-op on the persisted topic field values — loading again returns exactly the
same topics, every field unchanged. -/
theorem C6_save_load_roundtrip (now : String) (data : List RawItem) (ts : List Topic)
    (h : load_queue now (some data) = Except.ok ts) :
    load_queue now (some (save_queue ts)) = Except.ok ts := by
  show decodeAll now (save_queue ts) = Except.ok ts
  exact decodeAll_encode now ts

/-- Witness for C6 at a concrete persisted file. -/
theorem C6_save_load_roundtrip_witness :
    load_queue "T0" (some (save_queue [⟨"t1", "file", "a", "s", "done", "T1"⟩])) =
      Except.ok [⟨"t1", "file", "a", "s", "done", "T1"⟩] :=
  C6_save_load_roundtrip "T0" (save_queue [⟨"t1", "file", "a", "s", "done", "T1"⟩])
    [⟨"t1", "file", "a", "s", "done", "T1"⟩] rfl

/-! ### Topic parser (`parse_topics_from_response`, `TOPIC_LINE_PATTERN`)

The two regular expressions of `topics.py` are embedded as deterministic
character-list matchers.  Both patterns are deterministic after analysis of
the engine's backtracking: every `\s*` / `\s+` / `\w+` / `[^`]+` piece is
followed by a character that cannot belong to the piece's class, except for
the trailing `\s*\n` of the heading and the trailing `\s*(.+)$` of a bullet,
which are resolved by the explicit last-position searches below. -/

/-- The backtick character. -/
def backtick : Char := Char.ofNat 96

/-- Python's `\w` (ASCII fragment): letters, digits, underscore. -/
def isWordChar (c : Char) : Bool := c.isAlphanum || c == '_'

/-- Case-insensitive literal match: `pat` is given lowercase; on success
returns the input after the literal. -/
def matchCI : List Char → List Char → Option (List Char)
  | [], cs => some cs
  | _ :: _, [] => none
  | p :: ps, c :: cs => if c.toLower = p then matchCI ps cs else none

/-- `\s+` — requires at least one whitespace character, then consumes the
maximal whitespace run. -/
def dropSpacesOnePlus : List Char → Option (List Char)
  | [] => none
  | c :: rest => if isPySpace c then some (rest.dropWhile isPySpace) else none

/-- The trailing `\s*\n` of the heading pattern: the engine consumes the
whitespace run up to and including its last newline, failing when the run
has no newline. -/
def headingTailNewline (cs : List Char) : Option (List Char) :=
  match lastIdxWhere (fun c => c == '\n') (cs.takeWhile isPySpace) with
  | some j => some (cs.drop (j + 1))
  | none => none

/-- One attempt of the section regex
`#+\s*Topics?\s+to\s+Explore\s*\n` (`re.IGNORECASE`) at the head of `cs`;
on success returns the input right after the heading (where group 1 starts).
-/
def headingMatchAt (cs : List Char) : Option (List Char) :=
  if (cs.takeWhile (fun c => c == '#')).isEmpty then none
  else
    let c1 := (cs.dropWhile (fun c => c == '#')).dropWhile isPySpace
    match matchCI ['t', 'o', 'p', 'i', 'c'] c1 with
    | none => none
    | some c3 =>
      let c4 := match c3 with
        | c :: rest => if c.toLower = 's' then rest else c3
        | [] => c3
      match dropSpacesOnePlus c4 with
      | none => none
      | some c5 =>
        match matchCI ['t', 'o'] c5 with
        | none => none
        | some c6 =>
          match dropSpacesOnePlus c6 with
          | none => none
          | some c7 =>
            match matchCI ['e', 'x', 'p', 'l', 'o', 'r', 'e'] c7 with
            | none => none
            | some c8 => headingTailNewline c8

/-- `re.search` of the section pattern: leftmost matching start position. -/
def searchHeading : List Char → Option (List Char)
  | [] => none
  | c :: cs =>
    match headingMatchAt (c :: cs) with
    | some r => some r
    | none => searchHeading cs

/-- The lazy group `(.*?)(?=\n#|\Z)` (`re.DOTALL`): everything up to, but
not including, the first newline that is immediately followed by `#`, or to
the end of the text. -/
def captureSection : List Char → List Char
  | [] => []
  | c :: cs =>
    if c = '\n' ∧ cs.head? = some '#' then [] else c :: captureSection cs

/-- The trailing `\s*(.+)$` of `TOPIC_LINE_PATTERN` (no `DOTALL`, so `.`
excludes newlines; `$` under `MULTILINE` matches before a newline or at the
end): consumes the maximal whitespace run that still leaves a non-newline
character for `.+`, then captures up to the end of that line.  Returns the
title characters and the input after them. -/
def matchTitle (cs : List Char) : Option (List Char × List Char) :=
  let r := cs.dropWhile isPySpace
  match r with
  | _ :: _ =>
    some (r.takeWhile (fun c => c ≠ '\n'), r.dropWhile (fun c => c ≠ '\n'))
  | [] =>
    match lastIdxWhere (fun c => c ≠ '\n') cs with
    | some j =>
      some ((cs.drop j).takeWhile (fun c => c ≠ '\n'),
            (cs.drop j).dropWhile (fun c => c ≠ '\n'))
    | none => none

/-- One attempt of `TOPIC_LINE_PATTERN`
`^[-*]\s+\[(\w+)\]\s+`<target>`\s*(?:—|-|:)\s*(.+)$` at the head of `cs`
(the `^` anchor is handled by the caller).  On success returns the kind,
target and title groups and the input after the match. -/
def bulletMatchAt (cs : List Char) : Option (List Char × List Char × List Char × List Char) :=
  match cs with
  | [] => none
  | c :: r1 =>
    if c = '-' ∨ c = '*' then
      match dropSpacesOnePlus r1 with
      | none => none
      | some r3 =>
        match r3 with
        | '[' :: r4 =>
          let k := r4.takeWhile isWordChar
          if k.isEmpty then none
          else
            match r4.dropWhile isWordChar with
            | ']' :: r5 =>
              match dropSpacesOnePlus r5 with
              | none => none
              | some r7 =>
                match r7 with
                | b :: r8 =>
                  if b = backtick then
                    let tg := r8.takeWhile (fun x => x ≠ backtick)
                    if tg.isEmpty then none
                    else
                      match r8.dropWhile (fun x => x ≠ backtick) with
                      | _ :: r9 =>
                        let r10 := r9.dropWhile isPySpace
                        match r10 with
                        | s :: r11 =>
                          if s = '—' ∨ s = '-' ∨ s = ':' then
                            match matchTitle r11 with
                            | some (ttl, rest) => some (k, tg, ttl, rest)
                            | none => none
                          else none
                        | [] => none
                      | [] => none
                  else none
                | [] => none
            | _ => none
        | _ => none
    else none

/-- Construction of one parsed topic from the three groups
(`topics.py`, body of the `for match in ...` loop). -/
def mkParsedTopic (k tg ttl : List Char) (source now : String) : Topic :=
  let kind := String.mk (lowerChars k)
  { title := pyStrip (String.mk ttl),
    kind := if TOPIC_KINDS.contains kind then kind else "general",
    target := String.mk tg,
    source := source,
    status := "pending",
    added := now }

/-- `TOPIC_LINE_PATTERN.finditer` (`re.MULTILINE`): scans left to right,
attempting the pattern only where `^` holds (string start, or right after a
newline), resuming after the end of each match.  `fuel` bounds the scan and
is set to more than the input length by the caller. -/
def scanTopicsAux (source now : String) : Nat → List Char → Bool → List Topic
  | 0, _, _ => []
  | fuel + 1, cs, atStart =>
    match (if atStart then bulletMatchAt cs else none) with
    | some (k, tg, ttl, rest) =>
      mkParsedTopic k tg ttl source now :: scanTopicsAux source now fuel rest false
    | none =>
      match cs with
      | [] => []
      | c :: rest => scanTopicsAux source now fuel rest (c == '\n')

/-- `parse_topics_from_response(response, source)`: finds the topics
section, then scans it for topic bullet lines.  `now` is the timestamp the
`Topic` dataclass default assigns at construction. -/
def parse_topics_from_response (response : String) (source : String) (now : String) :
    List Topic :=
  match searchHeading response.toList with
  | none => []
  | some sec =>
    let body := captureSection sec
    scanTopicsAux source now (body.length + 1) body true

/-! ### Claim C7: the topics-section region -/

/-- Markup level of a heading line: the count of leading `#` characters
(`none` when the line does not start with `#`). -/
def headingLevel (line : String) : Option Nat :=
  let hs := line.toList.takeWhile (fun c => c == '#')
  if hs.isEmpty then none else some hs.length

/-- Spec-side reading (claim C7, §4.2 step 1): a heading line matching
"Topic(s) to Explore", case-insensitive, singular or plural; returns its
markup level. -/
def specTopicsHeading (line : String) : Option Nat :=
  match headingLevel line with
  | none => none
  | some lvl =>
    let t := pyLower (pyStrip (String.mk (line.toList.dropWhile (fun c => c == '#'))))
    if t = "topic to explore" ∨ t = "topics to explore" then some lvl else none

/-- Spec-side reading: index and level of the first topics heading line. -/
def specFindHeadingAux : Nat → List String → Option (Nat × Nat)
  | _, [] => none
  | i, l :: ls =>
    match specTopicsHeading l with
    | some lvl => some (i, lvl)
    | none => specFindHeadingAux (i + 1) ls

/-- Spec-side reading (claim C7, §4.2 step 2): lines up to, but not
including, the next heading line of equal-or-higher markup level. -/
def takeToHeading (lvl : Nat) : List String → List String
  | [] => []
  | l :: ls =>
    match headingLevel l with
    | some k => if k ≤ lvl then [] else l :: takeToHeading lvl ls
    | none => l :: takeToHeading lvl ls

/-- Spec-side reading of the whole parse contract of claim C7: bullet items
are taken from the region between the topics heading line and the next
heading line of equal-or-higher level (or end of text). -/
def specSectionTopics (response source now : String) : List Topic :=
  let lines := splitLines response
  match specFindHeadingAux 0 lines with
  | none => []
  | some (i, lvl) =>
    let body := String.intercalate "\n" (takeToHeading lvl (lines.drop (i + 1)))
    scanTopicsAux source now (body.toList.length + 1) body.toList true

/-- A level-1 topics heading followed by a bullet, then a level-3 heading,
then another bullet. -/
def ex7 : String := "# Topics to Explore\n- [file] `a` - x\n### Sub\n- [file] `b` - y"

/-- Counterexample to C7 as stated: the code's section regex stops at the
next line starting with `#` of ANY markup level (`(?=\n#|\Z)`), not only at
an equal-or-higher one.  On `ex7` the level-3 heading `### Sub` is deeper
than the level-1 topics heading, so the claimed region would include the
second bullet (two topics), but the code parses only one topic. -/
theorem C7_section_counterexample :
    (parse_topics_from_response ex7 "" "").length = 1
    ∧ (specSectionTopics ex7 "" "").length = 2
    ∧ parse_topics_from_response ex7 "" "" ≠ specSectionTopics ex7 "" "" := by
  refine ⟨rfl, rfl, by decide⟩

lemma headingMatchAt_not_hash (c : Char) (cs : List Char) (h : c ≠ '#') :
    headingMatchAt (c :: cs) = none := by
  have hb : (c == '#') = false := by
    simp [h]
  simp [headingMatchAt, List.takeWhile_cons, hb]

lemma searchHeading_no_hash (cs : List Char) (h : ∀ c ∈ cs, c ≠ '#') :
    searchHeading cs = none := by
  induction cs with
  | nil => rfl
  | cons c cs ih =>
    rw [searchHeading, headingMatchAt_not_hash c cs (h c (List.mem_cons_self _ _))]
    exact ih (fun d hd => h d (List.mem_cons_of_mem _ hd))

lemma captureSection_cons_head (cs : List Char) (d : Char) (v : List Char)
    (h : captureSection cs = d :: v) : cs.head? = some d := by
  cases cs with
  | nil => cases h
  | cons c cs =>
    rw [captureSection] at h
    by_cases hstop : c = '\n' ∧ cs.head? = some '#'
    · rw [if_pos hstop] at h
      cases h
    · rw [if_neg hstop] at h
      injection h with h1 h2
      rw [h1]
      rfl

lemma captureSection_no_marker (cs : List Char) :
    ∀ u v : List Char, captureSection cs ≠ u ++ '\n' :: '#' :: v := by
  induction cs with
  | nil =>
    intro u v h
    rw [show captureSection [] = [] from rfl] at h
    exact absurd h.symm (List.append_ne_nil_of_right_ne_nil u (List.cons_ne_nil _ _))
  | cons c cs ih =>
    intro u v h
    rw [captureSection] at h
    by_cases hstop : c = '\n' ∧ cs.head? = some '#'
    · rw [if_pos hstop] at h
      exact absurd h.symm (List.append_ne_nil_of_right_ne_nil u (List.cons_ne_nil _ _))
    · rw [if_neg hstop] at h
      cases u with
      | nil =>
        rw [List.nil_append] at h
        injection h with h1 h2
        exact hstop ⟨h1, captureSection_cons_head cs '#' v h2⟩
      | cons u0 us =>
        rw [List.cons_append] at h
        injection h with h1 h2
        exact ih us v h2

lemma captureSection_split (cs : List Char) :
    ∃ rest : List Char, cs = captureSection cs ++ rest ∧
      (rest = [] ∨ ∃ v, rest = '\n' :: '#' :: v) := by
  induction cs with
  | nil => exact ⟨[], rfl, Or.inl rfl⟩
  | cons c cs ih =>
    by_cases hstop : c = '\n' ∧ cs.head? = some '#'
    · refine ⟨c :: cs, ?_, Or.inr ?_⟩
      · rw [captureSection, if_pos hstop, List.nil_append]
      · obtain ⟨h1, h2⟩ := hstop
        cases cs with
        | nil => cases h2
        | cons d ds =>
          have hd : d = '#' := Option.some.inj h2
          exact ⟨ds, by rw [h1, hd]⟩
    · obtain ⟨rest, hsplit, halt⟩ := ih
      refine ⟨rest, ?_, halt⟩
      rw [captureSection, if_neg hstop, List.cons_append, ← hsplit]

/-- C7 (amended): the code's parse returns `[]` when the heading pattern
never matches — in particular whenever the text contains no `#` at all — and
the captured section is a region that contains no newline-then-`#` pair and
extends to the first such pair (a following heading line of ANY level) or to
the end of the input. -/
theorem C7_section_any_level (response source now : String) (cs : List Char) :
    ((∀ c ∈ response.toList, c ≠ '#') →
      parse_topics_from_response response source now = [])
    ∧ (∀ u v : List Char, captureSection cs ≠ u ++ '\n' :: '#' :: v)
    ∧ (∃ rest : List Char, cs = captureSection cs ++ rest ∧
        (rest = [] ∨ ∃ v, rest = '\n' :: '#' :: v)) := by
  refine ⟨fun h => ?_, captureSection_no_marker cs, captureSection_split cs⟩
  rw [parse_topics_from_response, searchHeading_no_hash _ h]

/-- Witness for C7 (amended) at a concrete hash-free text. -/
theorem C7_section_any_level_witness :
    parse_topics_from_response "Topics to Explore without heading" "" "" = [] :=
  (C7_section_any_level "Topics to Explore without heading" "" "" []).1 (by decide)

/-! ### Claim C8: bullet matching and kind coercion -/

lemma mkParsedTopic_kind (k tg ttl : List Char) (source now : String) :
    (mkParsedTopic k tg ttl source now).kind ∈ TOPIC_KINDS := by
  rw [mkParsedTopic]
  by_cases h : TOPIC_KINDS.contains (String.mk (lowerChars k))
  · simp only [h, if_true]
    exact List.mem_of_elem_eq_true h
  · simp only [h, Bool.false_eq_true, if_false]
    decide

lemma scanTopicsAux_succ (source now : String) (f : Nat) (cs : List Char) (b : Bool) :
    scanTopicsAux source now (f + 1) cs b =
      match (if b then bulletMatchAt cs else none) with
      | some (k, tg, ttl, rest) =>
          mkParsedTopic k tg ttl source now :: scanTopicsAux source now f rest false
      | none =>
          match cs with
          | [] => []
          | c :: rest => scanTopicsAux source now f rest (c == '\n') := rfl

lemma scanTopicsAux_kind (source now : String) :
    ∀ (fuel : Nat) (cs : List Char) (b : Bool) (t : Topic),
      t ∈ scanTopicsAux source now fuel cs b → t.kind ∈ TOPIC_KINDS := by
  intro fuel
  induction fuel with
  | zero =>
    intro cs b t ht
    simp [scanTopicsAux] at ht
  | succ f ih =>
    intro cs b t ht
    rw [scanTopicsAux_succ] at ht
    cases hm : (if b then bulletMatchAt cs else none) with
    | some quad =>
      obtain ⟨k, tg, ttl, rest⟩ := quad
      rw [hm] at ht
      simp only [List.mem_cons] at ht
      rcases ht with rfl | ht
      · exact mkParsedTopic_kind k tg ttl source now
      · exact ih rest false t ht
    | none =>
      rw [hm] at ht
      cases cs with
      | nil => simp at ht
      | cons c rest => exact ih rest (c == '\n') t ht

/-- The spec's parser scenario text. -/
def ex8 : String := "## Topics to Explore\n- [file] `a.py` — desc\n- [bogus] `b` — desc2"

/-- The scenario text with a malformed bullet line (no backtick-delimited
target) inserted between two well-formed ones. -/
def ex8malformed : String :=
  "## Topics to Explore\n- [file] `a.py` — desc\n- broken line no ticks\n- [repo] `r` : why"

/-- The scenario text with uppercase kind tokens: `[FILE]` must normalize to
`"file"` (not be coerced to `"general"`), `[BOGUS]` normalizes to `"bogus"`
which is then coerced. -/
def ex8upper : String :=
  "## Topics to Explore\n- [FILE] `a.py` — desc\n- [BOGUS] `b` — desc2"

lemma topic_kinds_lower (s : String) (h : s ∈ TOPIC_KINDS) : pyLower s = s := by
  simp only [TOPIC_KINDS, List.mem_cons, List.not_mem_nil, or_false] at h
  rcases h with rfl | rfl | rfl | rfl | rfl <;> rfl

/-- C8: a matched bullet's kind is the lowercase normalization of its
bracketed token when that normalization lies in `TOPIC_KINDS`, and
`"general"` otherwise (unknown kinds are never rejected); hence every
produced kind is a lowercase member of `TOPIC_KINDS`.  `[FILE]` normalizes
to `"file"` while `[BOGUS]` is coerced to `"general"`; the spec's scenario
parses as stated; and a bullet line missing its backtick-delimited target is
skipped without aborting the rest of the section. -/
theorem C8_kind_coercion (text source now : String) (k tg ttl : List Char) :
    (∀ t ∈ parse_topics_from_response text source now,
        t.kind ∈ TOPIC_KINDS ∧ pyLower t.kind = t.kind)
    ∧ (mkParsedTopic k tg ttl source now).kind =
        (if String.mk (lowerChars k) ∈ TOPIC_KINDS then String.mk (lowerChars k)
         else "general")
    ∧ parse_topics_from_response ex8upper "src" "T" =
        [⟨"desc", "file", "a.py", "src", "pending", "T"⟩,
         ⟨"desc2", "general", "b", "src", "pending", "T"⟩]
    ∧ parse_topics_from_response ex8 "src" "T" =
        [⟨"desc", "file", "a.py", "src", "pending", "T"⟩,
         ⟨"desc2", "general", "b", "src", "pending", "T"⟩]
    ∧ parse_topics_from_response ex8malformed "" "" =
        [⟨"desc", "file", "a.py", "", "pending", ""⟩,
         ⟨"why", "repo", "r", "", "pending", ""⟩] := by
  refine ⟨?_, ?_, rfl, rfl, rfl⟩
  · intro t ht
    have hmem : t.kind ∈ TOPIC_KINDS := by
      rw [parse_topics_from_response] at ht
      cases hs : searchHeading text.toList with
      | none =>
        rw [hs] at ht
        simp at ht
      | some sec =>
        rw [hs] at ht
        exact scanTopicsAux_kind source now _ _ _ t ht
    exact ⟨hmem, topic_kinds_lower t.kind hmem⟩
  · by_cases hm : String.mk (lowerChars k) ∈ TOPIC_KINDS
    · have hc : TOPIC_KINDS.contains (String.mk (lowerChars k)) = true :=
        List.elem_eq_true_of_mem hm
      show (if TOPIC_KINDS.contains (String.mk (lowerChars k)) = true
            then String.mk (lowerChars k) else "general") = _
      rw [if_pos hc, if_pos hm]
    · have hc : ¬ TOPIC_KINDS.contains (String.mk (lowerChars k)) = true :=
        fun h => hm (List.mem_of_elem_eq_true h)
      show (if TOPIC_KINDS.contains (String.mk (lowerChars k)) = true
            then String.mk (lowerChars k) else "general") = _
      rw [if_neg hc, if_neg hm]

/-- Witness for C8 at a topic parsed from an uppercase `[FILE]` token: its
kind is the lowercase `"file"`, a lowercase-fixed member of `TOPIC_KINDS`. -/
theorem C8_kind_coercion_witness :
    (⟨"desc", "file", "a.py", "src", "pending", "T"⟩ : Topic).kind ∈ TOPIC_KINDS
    ∧ pyLower (⟨"desc", "file", "a.py", "src", "pending", "T"⟩ : Topic).kind =
        (⟨"desc", "file", "a.py", "src", "pending", "T"⟩ : Topic).kind :=
  (C8_kind_coercion ex8upper "src" "T" [] [] []).1
    ⟨"desc", "file", "a.py", "src", "pending", "T"⟩ (by decide)

/-! ### Symbol extractor (`git_utils.py`, `extract_symbol`) -/

/-- `len(line) - len(stripped)`: the indentation width of a line. -/
def indentOf (line : String) : Nat :=
  line.length - (pyLstrip line).length

/-- The definition-line test of `extract_symbol` (the seven
`stripped.startswith(...)` alternatives). -/
def isDefLine (stripped : String) (symbol : String) : Bool :=
  pyStartsWith stripped ("def " ++ symbol ++ "(")
  || pyStartsWith stripped ("def " ++ symbol ++ " (")
  || pyStartsWith stripped ("class " ++ symbol ++ "(")
  || pyStartsWith stripped ("class " ++ symbol ++ ":")
  || pyStartsWith stripped ("class " ++ symbol ++ " (")
  || pyStartsWith stripped ("async def " ++ symbol ++ "(")
  || pyStartsWith stripped ("async def " ++ symbol ++ " (")

/-- The capturing state of `extract_symbol`: a blank line is emitted and
capture continues; a non-blank line at indentation ≤ `baseIndent` that is
not a comment line terminates before being emitted; every other line
(deeper indentation, or a comment line) is emitted and capture continues. -/
def captureLines (baseIndent : Nat) : List String → List String
  | [] => []
  | line :: rest =>
    let stripped := pyLstrip line
    if stripped = "" then line :: captureLines baseIndent rest
    else if indentOf line ≤ baseIndent ∧ pyStartsWith stripped "#" = false then []
    else line :: captureLines baseIndent rest

/-- The searching state of `extract_symbol`: scan for the first definition
line of `symbol`, then switch to capturing with that line's indentation as
the base. -/
def searchLines (symbol : String) : List String → List String
  | [] => []
  | line :: rest =>
    let stripped := pyLstrip line
    if isDefLine stripped symbol then
      line :: captureLines (line.length - stripped.length) rest
    else searchLines symbol rest

/-- `extract_symbol(file_path, symbol)` applied to the file's text content:
`None` when no definition line was found, otherwise the joined captured
lines. -/
def extract_symbol (content : String) (symbol : String) : Option String :=
  let result := searchLines symbol (splitLines content)
  if result = [] then none else some (String.intercalate "\n" result)

/-- The per-line continuation condition of the capturing state: blank, or
deeper than the base indentation, or a comment line. -/
def capContinues (baseIndent : Nat) (line : String) : Bool :=
  (pyLstrip line == "") || decide (baseIndent < indentOf line)
    || pyStartsWith (pyLstrip line) "#"

/-- A definition whose body is followed by a base-indent comment line and
then a further indented line. -/
def exC9 : String := "def f():\n    a\n# c\n    b\ndef g():\n    pass"

/-- Counterexample to C9 as stated: a comment line at or below the base
indentation does NOT terminate capturing — it is emitted and capture
continues.  Extracting `f` from `exC9` returns four lines: the comment line
`# c` at indentation 0 is captured, and so is the indented line `    b`
after it; capture only stops at `def g():`.  Under the claim the result
would have ended at (or before) the comment line. -/
theorem C9_comment_counterexample :
    extract_symbol exC9 "f" = some "def f():\n    a\n# c\n    b" := rfl

/-- C9 (amended): the capturing state is the `takeWhile` of the per-line
continuation condition: a non-blank non-comment line at indentation ≤
`baseIndent` terminates capture before being emitted, while a comment line
at or below `baseIndent` is emitted and capturing continues. -/
theorem C9_capture_comment_continues (base : Nat) (ls : List String) (l : String) :
    captureLines base ls = ls.takeWhile (capContinues base)
    ∧ (pyLstrip l ≠ "" → indentOf l ≤ base → pyStartsWith (pyLstrip l) "#" = false →
        captureLines base (l :: ls) = [])
    ∧ (pyLstrip l ≠ "" → indentOf l ≤ base → pyStartsWith (pyLstrip l) "#" = true →
        captureLines base (l :: ls) = l :: captureLines base ls) := by
  have main : ∀ ms : List String, captureLines base ms = ms.takeWhile (capContinues base) := by
    intro ms
    induction ms with
    | nil => rfl
    | cons line rest ih =>
      by_cases hblank : pyLstrip line = ""
      · have hc : capContinues base line = true := by
          simp [capContinues, hblank]
        rw [captureLines, if_pos hblank, List.takeWhile_cons, hc, if_pos rfl, ih]
      · by_cases hterm : indentOf line ≤ base ∧ pyStartsWith (pyLstrip line) "#" = false
        · have hc : capContinues base line = false := by
            simp only [capContinues, Bool.or_eq_false_iff]
            refine ⟨⟨?_, ?_⟩, hterm.2⟩
            · simpa using hblank
            · simpa using Nat.not_lt.mpr hterm.1
          rw [captureLines, if_neg hblank, if_pos hterm, List.takeWhile_cons, hc]
          rfl
        · have hc : capContinues base line = true := by
            rcases Decidable.not_and_iff_or_not.mp hterm with h | h
            · simp [capContinues, Nat.lt_of_not_le h]
            · have : pyStartsWith (pyLstrip line) "#" = true := by
                cases hb : pyStartsWith (pyLstrip line) "#" with
                | false => exact absurd hb h
                | true => rfl
              simp [capContinues, this]
          rw [captureLines, if_neg hblank, if_neg hterm, List.takeWhile_cons, hc, if_pos rfl,
            ih]
  refine ⟨main ls, fun hb hi hc => ?_, fun hb hi hc => ?_⟩
  · rw [captureLines, if_neg hb, if_pos ⟨hi, hc⟩]
  · rw [captureLines, if_neg hb]
    rw [if_neg (by rw [hc]; intro hx; cases hx.2)]

/-- Witness for C9 (amended): a non-comment line at base indentation stops
capture unemitted; a comment line at base indentation is emitted and capture
continues. -/
theorem C9_capture_comment_continues_witness :
    captureLines 0 ("def g():" :: ["    x"]) = []
    ∧ captureLines 0 ("# c" :: ["    x"]) = "# c" :: captureLines 0 ["    x"] :=
  ⟨(C9_capture_comment_continues 0 ["    x"] "def g():").2.1 (by decide) (by decide)
      (by decide),
   (C9_capture_comment_continues 0 ["    x"] "# c").2.2 (by decide) (by decide) (by decide)⟩

/-! ### Tree builder (`git_utils.py`, `get_repo_structure`)

The file system is modelled as a tree of named entries; `Path.iterdir`'s
arbitrary enumeration order is the stored child order, to which the code
applies `sorted(..., key=lambda e: (not e.is_dir(), e.name))`.  Python's
stable sort is modelled by a stable insertion sort over the same key
(extensionally the same function).  Permission errors are out of scope of
the modelled file system. -/

/-- One file-system entry: a file, or a directory with its children. -/
inductive FSEntry
  | file (name : String)
  | dir (name : String) (children : List FSEntry)

/-- `entry.name`. -/
def FSEntry.name : FSEntry → String
  | .file n => n
  | .dir n _ => n

/-- `entry.is_dir()`. -/
def FSEntry.isDir : FSEntry → Bool
  | .file _ => false
  | .dir _ _ => true

/-- Children of a directory entry (empty for a file). -/
def FSEntry.children : FSEntry → List FSEntry
  | .file _ => []
  | .dir _ cs => cs

/-- The `skip_dirs` exclusion set. -/
def skip_dirs : List String :=
  [".git", ".hg", ".svn", "node_modules", "__pycache__",
   ".tox", ".venv", "venv", ".env", "env", ".eggs",
   "dist", "build", ".mypy_cache", ".pytest_cache",
   ".ruff_cache", "htmlcov", ".coverage", "*.egg-info"]

/-- The `skip_suffixes` exclusion set. -/
def skip_suffixes : List String := [".pyc", ".pyo", ".so", ".o", ".a", ".dylib"]

/-- `pathlib.Path.suffix`: the text from the last dot of the name, unless
that dot is the first or last character. -/
def pySuffix (name : String) : String :=
  let l := name.toList
  match lastIdxWhere (fun c => c == '.') l with
  | some i => if 0 < i ∧ i < l.length - 1 then String.mk (l.drop i) else ""
  | none => ""

/-- The four `continue` conditions of the entry filter in
`get_repo_structure`. -/
def excludedEntry (e : FSEntry) : Bool :=
  (pyStartsWith e.name "." && skip_dirs.contains e.name)
  || (e.isDir && skip_dirs.contains e.name)
  || (e.isDir && pyEndsWith e.name ".egg-info")
  || (!e.isDir && skip_suffixes.contains (pySuffix e.name))

/-- The sort key order `(not e.is_dir(), e.name)`: directories before
files, alphabetically (by code point) within each group. -/
def entLE (a b : FSEntry) : Bool :=
  if a.isDir = b.isDir then pyStrLE a.name b.name else a.isDir

/-- Stable insertion of one entry into a sorted list: `e` goes before the
first element not strictly below it (so before its equals — `e` came earlier
in the original order). -/
def insertEntry (e : FSEntry) : List FSEntry → List FSEntry
  | [] => [e]
  | x :: xs =>
    if entLE x e ∧ entLE e x = false then x :: insertEntry e xs else e :: x :: xs

/-- `sorted(entries, key=lambda e: (not e.is_dir(), e.name))` as a stable
insertion sort. -/
def sortEntries : List FSEntry → List FSEntry
  | [] => []
  | e :: es => insertEntry e (sortEntries es)

/-- The filtering loop of `get_repo_structure`. -/
def filterEntries (es : List FSEntry) : List FSEntry :=
  es.filter (fun e => !excludedEntry e)

/-- The `for i, entry in enumerate(filtered)` loop of `_walk`: renders one
connector line per entry and descends into directories through `walk`, the
recursive call at the next depth. -/
def walkItems (walk : List FSEntry → String → List String) (pfx : String) :
    List FSEntry → List String
  | [] => []
  | e :: rest =>
    let isLast := rest.isEmpty
    let connector := if isLast then "└── " else "├── "
    let sub := match e with
      | .dir _ cs => walk cs (pfx ++ (if isLast then "    " else "│   "))
      | .file _ => []
    (pfx ++ connector ++ e.name) :: (sub ++ walkItems walk pfx rest)

/-- `_walk(dir_path, prefix, depth)`: `fuel` is `max_depth + 1 - depth`, so
`fuel = 0` is the `depth > max_depth` cutoff. -/
def walkDir : Nat → List FSEntry → String → List String
  | 0, _, _ => []
  | fuel + 1, children, pfx =>
    walkItems (fun cs p => walkDir fuel cs p) pfx (filterEntries (sortEntries children))

/-- `get_repo_structure(repo_path, max_depth)`: the root name line followed
by the recursive walk (`_walk(root, "", 1)`). -/
def get_repo_structure (root : FSEntry) (max_depth : Nat) : String :=
  String.intercalate "\n" ((root.name ++ "/") :: walkDir max_depth root.children "")

/-! ### Claim C10: ordering and filtering of the tree builder -/

lemma char_toNat_inj (a b : Char) (h : a.toNat = b.toNat) : a = b := by
  have := congrArg Char.ofNat h
  rwa [Char.ofNat_toNat, Char.ofNat_toNat] at this

lemma lexLE_total (l1 l2 : List Char) : lexLE l1 l2 = true ∨ lexLE l2 l1 = true := by
  induction l1 generalizing l2 with
  | nil => exact Or.inl rfl
  | cons a as ih =>
    cases l2 with
    | nil => exact Or.inr rfl
    | cons b bs =>
      by_cases hab : a = b
      · subst hab
        rcases ih bs with h | h
        · exact Or.inl (by rw [lexLE, if_pos rfl]; exact h)
        · exact Or.inr (by rw [lexLE, if_pos rfl]; exact h)
      · rcases Nat.lt_or_ge a.toNat b.toNat with h | h
        · exact Or.inl (by rw [lexLE, if_neg hab]; exact decide_eq_true h)
        · have hlt : b.toNat < a.toNat := by
            rcases Nat.lt_or_eq_of_le h with h2 | h2
            · exact h2
            · exact absurd (char_toNat_inj b a h2) (fun he => hab he.symm)
          exact Or.inr (by
            rw [lexLE, if_neg (fun he => hab he.symm)]
            exact decide_eq_true hlt)

lemma lexLE_trans (l1 l2 l3 : List Char) (h12 : lexLE l1 l2 = true)
    (h23 : lexLE l2 l3 = true) : lexLE l1 l3 = true := by
  induction l1 generalizing l2 l3 with
  | nil => rfl
  | cons a as ih =>
    cases l2 with
    | nil => cases h12
    | cons b bs =>
      cases l3 with
      | nil => cases h23
      | cons c cs =>
        by_cases hab : a = b <;> by_cases hbc : b = c
        · subst hab; subst hbc
          rw [lexLE, if_pos rfl] at h12 h23 ⊢
          exact ih bs cs h12 h23
        · subst hab
          rw [lexLE, if_neg hbc] at h23 ⊢
          exact h23
        · subst hbc
          rw [lexLE, if_neg hab] at h12 ⊢
          exact h12
        · rw [lexLE, if_neg hab] at h12
          rw [lexLE, if_neg hbc] at h23
          have h1 := of_decide_eq_true h12
          have h2 := of_decide_eq_true h23
          have hac : a ≠ c := by
            intro he
            subst he
            exact absurd (char_toNat_inj a b (Nat.le_antisymm (Nat.le_of_lt h1)
              (Nat.le_of_lt h2))) hab
          rw [lexLE, if_neg hac]
          exact decide_eq_true (Nat.lt_trans h1 h2)

lemma entLE_total (a b : FSEntry) : entLE a b = true ∨ entLE b a = true := by
  by_cases h : a.isDir = b.isDir
  · rw [entLE, if_pos h, entLE, if_pos h.symm]
    exact lexLE_total a.name.toList b.name.toList
  · rw [entLE, if_neg h, entLE, if_neg (fun he => h he.symm)]
    cases ha : a.isDir with
    | true => exact Or.inl rfl
    | false =>
      cases hb : b.isDir with
      | true => exact Or.inr rfl
      | false => exact absurd (ha.trans hb.symm) h

lemma entLE_trans (a b c : FSEntry) (h12 : entLE a b = true) (h23 : entLE b c = true) :
    entLE a c = true := by
  by_cases hab : a.isDir = b.isDir <;> by_cases hbc : b.isDir = c.isDir
  · rw [entLE, if_pos (hab.trans hbc)]
    rw [entLE, if_pos hab] at h12
    rw [entLE, if_pos hbc] at h23
    exact lexLE_trans _ _ _ h12 h23
  · rw [entLE, if_neg hbc] at h23
    have hac : ¬ a.isDir = c.isDir := by rw [hab]; exact hbc
    rw [entLE, if_neg hac, hab]
    exact h23
  · rw [entLE, if_neg hab] at h12
    have hac : ¬ a.isDir = c.isDir := by rw [← hbc]; exact hab
    rw [entLE, if_neg hac]
    exact h12
  · rw [entLE, if_neg hab] at h12
    rw [entLE, if_neg hbc] at h23
    have hb : b.isDir = false := by
      cases hx : b.isDir with
      | false => rfl
      | true => exact absurd (h12.trans hx.symm) hab
    rw [hb] at h23
    cases h23

lemma insertEntry_mem (e x : FSEntry) (l : List FSEntry) :
    x ∈ insertEntry e l ↔ x = e ∨ x ∈ l := by
  induction l with
  | nil => simp [insertEntry]
  | cons y ys ih =>
    rw [insertEntry]
    by_cases hc : entLE y e ∧ entLE e y = false
    · rw [if_pos hc]
      simp only [List.mem_cons, ih]
      tauto
    · rw [if_neg hc]
      simp only [List.mem_cons]

lemma insertEntry_pairwise (e : FSEntry) (l : List FSEntry)
    (hl : List.Pairwise (fun a b => entLE a b = true) l) :
    List.Pairwise (fun a b => entLE a b = true) (insertEntry e l) := by
  induction l with
  | nil => simp [insertEntry]
  | cons y ys ih =>
    rw [insertEntry]
    rcases List.pairwise_cons.mp hl with ⟨hy, hys⟩
    by_cases hc : entLE y e ∧ entLE e y = false
    · rw [if_pos hc]
      refine List.pairwise_cons.mpr ⟨?_, ih hys⟩
      intro z hz
      rcases (insertEntry_mem e z ys).mp hz with rfl | hz
      · exact hc.1
      · exact hy z hz
    · rw [if_neg hc]
      have hey : entLE e y = true := by
        rcases Decidable.not_and_iff_or_not.mp hc with h | h
        · rcases entLE_total y e with h2 | h2
          · exact absurd h2 h
          · exact h2
        · cases hx : entLE e y with
          | false => exact absurd hx h
          | true => rfl
      refine List.pairwise_cons.mpr ⟨?_, hl⟩
      intro z hz
      rcases List.mem_cons.mp hz with rfl | hz
      · exact hey
      · exact entLE_trans e y z hey (hy z hz)

lemma sortEntries_mem (x : FSEntry) (l : List FSEntry) :
    x ∈ sortEntries l ↔ x ∈ l := by
  induction l with
  | nil => rfl
  | cons e es ih =>
    rw [sortEntries, insertEntry_mem, ih]
    simp [List.mem_cons]

lemma sortEntries_pairwise (l : List FSEntry) :
    List.Pairwise (fun a b => entLE a b = true) (sortEntries l) := by
  induction l with
  | nil => exact List.Pairwise.nil
  | cons e es ih => exact insertEntry_pairwise e (sortEntries es) ih

/-- The spec's tree-builder scenario: a root holding `.git/`, `src/app.py`
and `README.md`. -/
def scenTree : FSEntry :=
  FSEntry.dir "root"
    [FSEntry.dir ".git" [], FSEntry.dir "src" [FSEntry.file "app.py"],
     FSEntry.file "README.md"]

/-- Counterexample to C10 as stated: an entry whose name is in the fixed
exclusion set DOES produce an output line when it is a plain (non-dotted)
file — the code excludes by name only dot-prefixed entries and directories.
A file named `venv` is rendered although `"venv" ∈ skip_dirs`. -/
theorem C10_excluded_name_counterexample :
    get_repo_structure (FSEntry.dir "r" [FSEntry.file "venv"]) 4 = "r/\n└── venv"
    ∧ "venv" ∈ skip_dirs := ⟨rfl, by decide⟩

/-- C10 (amended): at every directory level the rendered entries are
exactly the entries the code's filter keeps (dot-prefixed names in the
exclusion set, directories whose name is in the exclusion set or ends in
`.egg-info`, and files with an excluded suffix produce no output line and
are not descended into), ordered with all directories before all files and
alphabetically within each group; on the spec's scenario `.git` is omitted
entirely and `src` is listed before `README.md` for every `maxDepth ≥ 1`. -/
theorem C10_tree_filter_sort (es : List FSEntry) :
    (∀ e, e ∈ filterEntries (sortEntries es) ↔ e ∈ es ∧ excludedEntry e = false)
    ∧ List.Pairwise (fun a b => entLE a b = true) (filterEntries (sortEntries es))
    ∧ (∀ d : Nat,
        (d = 1 → get_repo_structure scenTree d = "root/\n├── src\n└── README.md")
        ∧ (2 ≤ d → get_repo_structure scenTree d =
            "root/\n├── src\n│   └── app.py\n└── README.md")) := by
  refine ⟨?_, ?_, ?_⟩
  · intro e
    rw [filterEntries, List.mem_filter, sortEntries_mem]
    simp [Bool.not_eq_true']
  · exact List.Pairwise.filter _ (sortEntries_pairwise es)
  · intro d
    constructor
    · rintro rfl
      rfl
    · intro hd
      obtain ⟨k, rfl⟩ : ∃ k, d = k + 2 := ⟨d - 2, by omega⟩
      rfl

/-- Witness for C10 (amended) at concrete depths. -/
theorem C10_tree_filter_sort_witness :
    get_repo_structure scenTree 1 = "root/\n├── src\n└── README.md"
    ∧ get_repo_structure scenTree 2 = "root/\n├── src\n│   └── app.py\n└── README.md" :=
  ⟨(((C10_tree_filter_sort []).2.2) 1).1 rfl, (((C10_tree_filter_sort []).2.2) 2).2 (by decide)⟩
